import Mathlib

/-!
# ba-spine: orchestration logic of the sprite exporter

A shallow embedding of `src/main.cpp`.  Strings are lists of characters (one
`Char` per byte of a `std::string`), a `std::filesystem::path` is its POSIX
pathname string, the file system is a tree of directories and regular files
reached by pathname resolution, exceptions are `Except` values, and the external
collaborators (the skeleton loader and the rendering library) are the fields of a
`Backend`.
-/

namespace BaSpine

/-! ## Strings -/

/-- A `std::string`, one `Char` per byte. -/
abbrev Str := List Char

/-- The `std::tolower` of the "C" locale, which the program never changes: the
letters `A`..`Z` (65..90) move to `a`..`z`, every other byte is kept. -/
def tolower (c : Char) : Char :=
  if 65 ≤ c.toNat ∧ c.toNat ≤ 90 then Char.ofNat (c.toNat + 32) else c

/-- The `toLowercase` of main.cpp:38, `std::transform` with `std::tolower`. -/
def toLowercase (str : Str) : Str :=
  str.map tolower

/-- The `std::string::find(needle)` from position 0: the least position at which
`needle` starts, `none` standing for `npos`. -/
def find : Str → Str → Option Nat
  | [], needle => if needle.isPrefixOf [] then some 0 else none
  | c :: t, needle =>
    if needle.isPrefixOf (c :: t) then some 0 else (find t needle).map (· + 1)

/-- The `contains` of main.cpp:46: `std::find_if` over `values` for a value that
`str.find` locates, compared with `values.end()`. -/
def contains (str : Str) (values : List Str) : Bool :=
  (values.find? (fun s => (find str s).isSome)).isSome

/-! ## Classification heuristic -/

/-- The `isStaticAnimation` of main.cpp:96; `animations_size` is
`skeleton_data->getAnimations().size()`. -/
def isStaticAnimation (animations_size : Nat) (animation_name : Str) : Bool :=
  let lowercase_animation_name := toLowercase animation_name
  if contains lowercase_animation_name ["eyeclose".toList, "eye_close".toList] then
    false
  else if contains lowercase_animation_name ["idle".toList] then
    decide (animations_size ≤ 1)
  else
    true

/-! ## Paths

A `std::filesystem::path` is modelled by its pathname string in the POSIX
generic format (separator `/`, no root name); the decomposition functions
follow the wording of [fs.path.decompose] and [fs.path.append]. -/

/-- A `std::filesystem::path`, as its pathname string. -/
abbrev Path := Str

/-- The `path::filename()`: the characters after the last separator. -/
def filename (p : Path) : Str :=
  (p.reverse.takeWhile (fun c => c != '/')).reverse

/-- The pathname up to and including its last separator (what precedes `filename`). -/
def directoryPrefix (p : Path) : Str :=
  (p.reverse.dropWhile (fun c => c != '/')).reverse

/-- Removes the separators a pathname ends with. -/
def stripSeparators (p : Str) : Str :=
  (p.reverse.dropWhile (fun c => c == '/')).reverse

/-- The `path::has_relative_path()`: some character is not a separator. -/
def has_relative_path (p : Path) : Bool :=
  p.any (fun c => c != '/')

/-- The `path::parent_path()`: the path itself when it has no relative path,
otherwise the longest prefix with one element fewer: the directory prefix without
its trailing separators, or the root directory when nothing else is left. -/
def parent_path (p : Path) : Path :=
  if has_relative_path p then
    let d := stripSeparators (directoryPrefix p)
    if d = [] ∧ directoryPrefix p ≠ [] then ['/'] else d
  else p

/-- The `std::string::rfind(c)`: the greatest position holding `c`, `none` for `npos`. -/
def rfind : Str → Char → Option Nat
  | [], _ => none
  | x :: t, c =>
    match rfind t c with
    | some k => some (k + 1)
    | none => if x = c then some 0 else none

/-- The `path::stem()`: the file name itself when it has no period other than a
leading one or is `.` or `..`, otherwise its prefix ending before the last period. -/
def stem (p : Path) : Str :=
  let f := filename p
  match rfind f '.' with
  | none => f
  | some 0 => f
  | some (k + 1) => if f = "..".toList then f else f.take (k + 1)

/-- The `path::extension()`: the suffix of `filename()` not included in `stem()`. -/
def extension (p : Path) : Str :=
  (filename p).drop (stem p).length

/-- The `operator/` of paths: a right operand with a root directory replaces the
left one; otherwise a separator is added when the left operand has a file name,
and the right operand is appended. -/
def append (p q : Path) : Path :=
  if q.head? = some '/' then q
  else if filename p ≠ [] then p ++ '/' :: q
  else p ++ q

/-! ## Path and name utilities -/

/-- The `getBasename` of main.cpp:54. -/
def getBasename (filepath : Path) : Str :=
  let lower_basename := toLowercase (stem filepath)
  match find lower_basename "_spr".toList with
  | some char_suffix_pos => lower_basename.take char_suffix_pos
  | none => lower_basename

/-- The output of `operator<<` for a `short` with the given fill character and
field width, the adjustment left at its default (padding on the left). -/
def putShort (fill : Char) (width : Nat) (v : Int) : Str :=
  let digits := if v < 0 then '-' :: Nat.toDigits 10 v.natAbs else Nat.toDigits 10 v.natAbs
  List.replicate (width - digits.length) fill ++ digits

/-- The `getFilename` of main.cpp:70.  `index` is the `int16_t` argument (`-1` by
default) and `prefix_width` the `uint8_t` one (`6` by default); the callers of the
three-argument form pass `-1` and `6`. -/
def getFilename (basename animation_name file_extension : Str) (index : Int)
    (prefix_width : Nat) : Str :=
  let result := basename ++ "--".toList ++ animation_name
  let result :=
    if index ≠ -1 then result ++ '-' :: putShort '0' prefix_width index else result
  result ++ '.' :: file_extension

/-- The `getAtlasPath` of main.cpp:374. -/
def getAtlasPath (skel_filepath : Path) : Path :=
  let skel_parent_dir := parent_path skel_filepath
  let skel_basename := stem skel_filepath
  append skel_parent_dir (skel_basename ++ ".atlas".toList)

/-! ## File system and external collaborators

The file system is a POSIX one that nothing else changes during the run.  A
pathname is resolved name by name, from the root directory or from the working
directory, `..` leading back along the names (no symbolic link on the way). -/

/-- What a location of the file system holds. -/
inductive Kind where
  | directory
  | regular
  deriving DecidableEq

/-- A location of the file system: the names that lead to it from the root
directory (`absolute`) or from the working directory; names `..` at the front lead
above the working directory. -/
structure Location where
  absolute : Bool
  names : List Str
  deriving DecidableEq

/-- The part of the file system the program acts on.  `nodes` lists what exists,
besides the root directory, the working directory and the directories above it;
`denied` lists the pathnames on which every call fails with an error other than
"not found" (a directory on the way cannot be searched, the pathname is too long);
`refused` lists the locations at which the system refuses to create a directory or
to write a file (permissions, a read-only or full medium, a name too long, a link
without target); `images` lists the pathnames at which `saveToFile` has written an
image, oldest first. -/
structure FileSystem where
  nodes : List (Location × Kind)
  denied : List Path
  refused : List Location
  images : List Path
  deriving DecidableEq

/-- What a location holds: the root directory, the working directory and the
directories above it always exist; otherwise the first node at that location. -/
def kindAt (fs : FileSystem) (l : Location) : Option Kind :=
  if l.names.all (fun n => decide (n = "..".toList)) then some Kind.directory
  else (fs.nodes.find? (fun n => decide (n.1 = l))).map (fun n => n.2)

/-- The directory a directory lies in; the root directory is its own parent. -/
def parentOf (l : Location) : Location :=
  if l.names.all (fun n => decide (n = "..".toList)) then
    if l.absolute then l else { absolute := false, names := l.names ++ ["..".toList] }
  else { absolute := l.absolute, names := l.names.dropLast }

/-- The pieces of a pathname between its separators, empty pieces included. -/
def components : Path → List Str
  | [] => [[]]
  | c :: t =>
    if c = '/' then [] :: components t
    else
      match components t with
      | [] => [[c]]
      | h :: r => (c :: h) :: r

/-- The names of a pathname: its non-empty components. -/
def segments (p : Path) : List Str :=
  (components p).filter (fun n => decide (n ≠ []))

/-- Whether a pathname ends with a separator. -/
def endsWithSeparator (p : Path) : Bool :=
  decide (p.getLast? = some '/')

/-- The location of the entry `name` of the directory at `d`. -/
def child (d : Location) (name : Str) : Location :=
  { absolute := d.absolute, names := d.names ++ [name] }

/-- One step of pathname resolution: `name` is looked up in `cur`, which must be
an existing directory; the location reached need not hold anything. -/
def step (fs : FileSystem) (cur : Location) (name : Str) : Option Location :=
  if kindAt fs cur = some Kind.directory then
    if name = ".".toList then some cur
    else if name = "..".toList then some (parentOf cur)
    else some (child cur name)
  else none

/-- Pathname resolution from `cur` along `names`. -/
def resolveFrom (fs : FileSystem) : Location → List Str → Option Location
  | cur, [] => some cur
  | cur, name :: rest =>
    match step fs cur name with
    | some next => resolveFrom fs next rest
    | none => none

/-- The location a pathname names, when every name before the last leads to an
existing directory (`ENOENT` and `ENOTDIR` otherwise, and for the empty pathname). -/
def locate (fs : FileSystem) (p : Path) : Option Location :=
  if p = [] then none
  else resolveFrom fs { absolute := decide (p.head? = some '/'), names := [] } (segments p)

/-- The `fs::exists`: the pathname resolves to something that exists; a pathname
that ends with a separator resolves only to a directory.  The result is `none`
when `status` fails with an error other than "not found" and `fs::exists` throws. -/
def fs_exists (fs : FileSystem) (p : Path) : Option Bool :=
  if p ∈ fs.denied then none
  else
    match locate fs p with
    | none => some false
    | some l =>
      match kindAt fs l with
      | none => some false
      | some Kind.directory => some true
      | some Kind.regular => some (!endsWithSeparator p)

deriving instance DecidableEq for Except

/-- The throwing `fs::create_directory`: `mkdir` creates the directory when the
pathname resolves to a location that holds nothing and the system does not refuse;
an existing directory is left as it is; in every other case (the pathname is
denied, a name on the way is missing or is not a directory, a regular file sits
there, the system refuses) a `filesystem_error` is thrown, which nothing in the
program catches: the error value is the file system the program leaves behind. -/
def create_directory (fs : FileSystem) (p : Path) : Except FileSystem FileSystem :=
  if p ∈ fs.denied then Except.error fs
  else
    match locate fs p with
    | none => Except.error fs
    | some l =>
      match kindAt fs l with
      | some Kind.directory => Except.ok fs
      | some Kind.regular => Except.error fs
      | none =>
        if l ∈ fs.refused then Except.error fs
        else Except.ok { fs with nodes := fs.nodes ++ [(l, Kind.directory)] }

/-- The statement `if (!fs::exists(p)) fs::create_directory(p);` of main.cpp:172
and main.cpp:401; an exception of either call leaves the program. -/
def ensureDirectory (fs : FileSystem) (p : Path) : Except FileSystem FileSystem :=
  match fs_exists fs p with
  | none => Except.error fs
  | some true => Except.ok fs
  | some false => create_directory fs p

/-- The external collaborators, over the type `σ` of loaded skeleton data:
`readSkeletonBinaryData` (main.cpp:25, with the atlas built from the atlas path
and the scale fixed for the run) returns no data on failure; `getAnimations` lists
the animation names in definition order; `rendererCreate` tells whether
`sf::RenderTexture::create` succeeds for the bounds of the loaded skeleton;
`encodes` tells whether the rendering library encodes the image rendered from that
skeleton for a file of that pathname (it chooses the format from the name). -/
structure Backend (σ : Type) where
  readSkeletonBinaryData : Path → Path → Option σ
  getAnimations : σ → List Str
  rendererCreate : σ → Bool
  encodes : σ → Path → Bool

/-- The `saveToFile` of the image rendered from `skeleton_data`, at `p`; main.cpp:200
ignores its result.  The image is written when the library encodes it for that
pathname, the pathname is not denied, does not end with a separator and resolves to
a location that holds nothing or a regular file (which is replaced), and the system
does not refuse; otherwise the file system is left as it is. -/
def saveToFile {σ : Type} (B : Backend σ) (skeleton_data : σ) (fs : FileSystem)
    (p : Path) : FileSystem :=
  if B.encodes skeleton_data p = false then fs
  else if p ∈ fs.denied then fs
  else if endsWithSeparator p then fs
  else
    match locate fs p with
    | none => fs
    | some l =>
      match kindAt fs l with
      | some Kind.directory => fs
      | some Kind.regular =>
        if l ∈ fs.refused then fs else { fs with images := fs.images ++ [p] }
      | none =>
        if l ∈ fs.refused then fs
        else { fs with nodes := fs.nodes ++ [(l, Kind.regular)], images := fs.images ++ [p] }

/-! ## Export orchestrator -/

/-- The animation loop of `drawCharacterSprite` (main.cpp:179), over the
animations not yet visited. -/
def drawAnimations {σ : Type} (B : Backend σ) (skeleton_data : σ) (basename : Str)
    (char_dest_dir : Path) (file_extension : Str) : List Str → FileSystem → FileSystem
  | [], fs => fs
  | animation_name :: rest, fs =>
    if isStaticAnimation (B.getAnimations skeleton_data).length animation_name then
      let file_destpath :=
        append char_dest_dir (getFilename basename animation_name file_extension (-1) 6)
      drawAnimations B skeleton_data basename char_dest_dir file_extension rest
        (saveToFile B skeleton_data fs file_destpath)
    else
      drawAnimations B skeleton_data basename char_dest_dir file_extension rest fs

/-- The `drawCharacterSprite` of main.cpp:118.  The result is `Except.error` when a
`filesystem_error` leaves the function (and the program), with the file system
left behind. -/
def drawCharacterSprite {σ : Type} (B : Backend σ) (dest_dir : Path) (file_extension : Str)
    (skel_filepath atlas_filepath : Path) (fs : FileSystem) : Except FileSystem FileSystem :=
  match B.readSkeletonBinaryData skel_filepath atlas_filepath with
  | none => Except.ok fs
  | some skeleton_data =>
    if !B.rendererCreate skeleton_data then Except.ok fs
    else
      let basename := getBasename skel_filepath
      let char_dest_dir := append dest_dir basename
      match ensureDirectory fs char_dest_dir with
      | Except.error left => Except.error left
      | Except.ok fs1 =>
        Except.ok (drawAnimations B skeleton_data basename char_dest_dir file_extension
          (B.getAnimations skeleton_data) fs1)

/-! ## Directory walker -/

/-- The loop of `main` (main.cpp:405) over the enumerated entries, with the call
of `drawCharacterSprite` abstracted as `draw skel_filepath atlas_filepath`; an
exception that leaves `draw` ends the loop. -/
def walk {α ε : Type} (draw : Path → Path → α → Except ε α) : List Path → α → Except ε α
  | [], s => Except.ok s
  | entry :: rest, s =>
    if extension entry = ".skel".toList then
      let skel_filepath := entry
      let lower_skel_basename := toLowercase (stem skel_filepath)
      if contains lower_skel_basename ["home".toList, "scene".toList] then
        walk draw rest s
      else
        let atlas_filepath := getAtlasPath skel_filepath
        match draw skel_filepath atlas_filepath s with
        | Except.error e => Except.error e
        | Except.ok s1 => walk draw rest s1
    else
      walk draw rest s

/-- The `main` of main.cpp:382 after argument handling: `entries` is what
`fs::recursive_directory_iterator(input_dir)` enumerates. -/
def main {σ : Type} (B : Backend σ) (dest_dir : Path) (file_extension : Str)
    (entries : List Path) (fs : FileSystem) : Except FileSystem FileSystem :=
  match ensureDirectory fs dest_dir with
  | Except.error left => Except.error left
  | Except.ok fs1 => walk (drawCharacterSprite B dest_dir file_extension) entries fs1

/-! ## Reference notions used in the statements -/

/-- The number a string of decimal digits denotes. -/
def decimalValue (s : Str) : Nat :=
  s.foldl (fun acc c => acc * 10 + (c.toNat - 48)) 0

/-- The decimal representation of `i` left-padded with `0` to `w` characters. -/
def zeroPadded (w i : Nat) : Str :=
  List.replicate (w - (Nat.repr i).length) '0' ++ (Nat.repr i).toList

/-- The selection rule of the walker in the words of the specification: the
extension is exactly `.skel` and the lowercased stem contains neither `home` nor
`scene`. -/
def isCharacterSkeleton (p : Path) : Prop :=
  extension p = ".skel".toList ∧
    ¬ "home".toList <:+: toLowercase (stem p) ∧ ¬ "scene".toList <:+: toLowercase (stem p)

instance : DecidablePred isCharacterSkeleton := fun p => by
  unfold isCharacterSkeleton
  exact inferInstance

/-- The paths `main` passes to `drawCharacterSprite`, in call order: the walker run
with a `draw` that only records its first argument and never throws. -/
def passedPaths (entries : List Path) : List Path :=
  match walk (fun skel_filepath _ (log : List Path) =>
      (Except.ok (log ++ [skel_filepath]) : Except Unit (List Path))) entries [] with
  | Except.ok log => log
  | Except.error _ => []

/-- The three shapes a parent path can take: empty, the root directory, or a
pathname that does not end with a separator. -/
def ParentShape (d : Path) : Prop :=
  d = [] ∨ d = ['/'] ∨ ∃ x r, d.reverse = x :: r ∧ x ≠ '/'

/-- The animations of an asset that `isStaticAnimation` classifies static, in
definition order. -/
def staticAnimations (names : List Str) : List Str :=
  names.filter (isStaticAnimation names.length)

/-- The file name of the image of an animation, `getFilename` with no frame index. -/
def imageName (c name file_extension : Str) : Str :=
  getFilename c name file_extension (-1) 6

/-- The pathname `dest_dir / c / getFilename c name extension` of an image. -/
def imagePath (dest_dir : Path) (c name file_extension : Str) : Path :=
  append (append dest_dir c) (imageName c name file_extension)

/-- A backend for examples: loading `bad.skel` fails, every other skeleton loads
with the animations `idle` and `attack`, every surface can be created, and the
library encodes for the pathnames with the extension `.png`. -/
def demoBackend : Backend (List Str) where
  readSkeletonBinaryData skel_filepath _ :=
    if skel_filepath = "bad.skel".toList then none else some ["idle".toList, "attack".toList]
  getAnimations skeleton_data := skeleton_data
  rendererCreate _ := true
  encodes _ p := decide (extension p = ".png".toList)

/-- The location `names` below the working directory. -/
def below (names : List Str) : Location :=
  { absolute := false, names := names }

/-- An output tree for examples: nothing but the working directory. -/
def emptyTree : FileSystem :=
  { nodes := [], denied := [], refused := [], images := [] }

/-- An output tree for examples: the directory `result` in the working directory. -/
def demoTree : FileSystem :=
  { nodes := [(below ["result".toList], Kind.directory)],
    denied := [],
    refused := [],
    images := [] }

/-- An output tree for examples: `result` is a regular file. -/
def fileAsRoot : FileSystem :=
  { nodes := [(below ["result".toList], Kind.regular)],
    denied := [],
    refused := [],
    images := [] }

/-- An output tree for examples: the directory `result` holds a regular file `a`. -/
def fileAsDirectory : FileSystem :=
  { nodes := [(below ["result".toList], Kind.directory),
      (below ["result".toList, "a".toList], Kind.regular)],
    denied := [],
    refused := [],
    images := [] }

/-! ## Facts about `find` and `contains` -/

theorem find_eq_none_iff (s n : Str) : find s n = none ↔ ¬ n <:+: s := by
  induction s with
  | nil =>
    cases n with
    | nil => simp [find]
    | cons a n => simp [find]
  | cons c t ih =>
    unfold find
    by_cases hp : n.isPrefixOf (c :: t) = true
    · simp only [hp, if_true]
      have : n <+: c :: t := List.isPrefixOf_iff_prefix.mp hp
      simp [this.isInfix]
    · simp only [hp]
      have hnp : ¬ n <+: c :: t := fun h => hp (List.isPrefixOf_iff_prefix.mpr h)
      simp only [Bool.false_eq_true, if_false, Option.map_eq_none', ih]
      rw [List.infix_cons_iff]
      tauto

theorem find_isSome_iff (s n : Str) : (find s n).isSome = true ↔ n <:+: s := by
  rw [← not_iff_not, ← find_eq_none_iff]
  cases find s n <;> simp

theorem contains_iff (s : Str) (values : List Str) :
    contains s values = true ↔ ∃ v ∈ values, v <:+: s := by
  unfold contains
  rw [List.find?_isSome]
  simp only [find_isSome_iff]


theorem find_eq_some_iff (s n : Str) (k : Nat) :
    find s n = some k ↔ n <+: s.drop k ∧ ∀ j < k, ¬ n <+: s.drop j := by
  induction s generalizing k with
  | nil =>
    unfold find
    by_cases hp : n.isPrefixOf [] = true
    · have hn : n <+: [] := List.isPrefixOf_iff_prefix.mp hp
      simp only [hp, if_true, Option.some.injEq, List.drop_nil]
      constructor
      · intro h; subst h
        exact ⟨hn, fun j hj => absurd hj (Nat.not_lt_zero j)⟩
      · rintro ⟨-, h⟩
        rcases Nat.eq_zero_or_pos k with hk | hk
        · exact hk.symm
        · exact absurd hn (h 0 hk)
    · have hn : ¬ n <+: [] := fun h => hp (List.isPrefixOf_iff_prefix.mpr h)
      simp only [hp, Bool.false_eq_true, if_false, List.drop_nil]
      constructor
      · intro h; cases h
      · rintro ⟨h, -⟩
        exact absurd h hn
  | cons c t ih =>
    unfold find
    by_cases hp : n.isPrefixOf (c :: t) = true
    · have hn : n <+: c :: t := List.isPrefixOf_iff_prefix.mp hp
      simp only [hp, if_true, Option.some.injEq]
      constructor
      · intro h; subst h
        exact ⟨hn, fun j hj => absurd hj (Nat.not_lt_zero j)⟩
      · rintro ⟨-, h⟩
        rcases Nat.eq_zero_or_pos k with hk | hk
        · exact hk.symm
        · exact absurd hn (h 0 hk)
    · have hn : ¬ n <+: c :: t := fun h => hp (List.isPrefixOf_iff_prefix.mpr h)
      simp only [hp, Bool.false_eq_true, if_false, Option.map_eq_some']
      cases k with
      | zero =>
        constructor
        · rintro ⟨a, -, ha⟩
          exact absurd ha (Nat.succ_ne_zero a)
        · rintro ⟨h, -⟩
          exact absurd h hn
      | succ k =>
        constructor
        · rintro ⟨a, ha, hk⟩
          have hak : a = k := Nat.succ.inj hk
          subst hak
          obtain ⟨h1, h2⟩ := (ih a).mp ha
          refine ⟨h1, fun j hj => ?_⟩
          cases j with
          | zero => exact hn
          | succ j => exact h2 j (Nat.lt_of_succ_lt_succ hj)
        · rintro ⟨h1, h2⟩
          refine ⟨k, (ih k).mpr ⟨h1, fun j hj => ?_⟩, rfl⟩
          exact h2 (j + 1) (Nat.succ_lt_succ hj)

/-- Truncating at the first occurrence of a non-empty needle leaves no occurrence. -/
theorem find_take_eq_none (s n : Str) (k : Nat) (hn : n ≠ []) (h : find s n = some k) :
    find (s.take k) n = none := by
  rw [find_eq_none_iff]
  intro hin
  obtain ⟨t, hpre, hsuf⟩ := List.infix_iff_prefix_suffix.mp hin
  obtain ⟨-, hmin⟩ := (find_eq_some_iff s n k).mp h
  rw [List.suffix_iff_eq_drop] at hsuf
  generalize (List.take k s).length - t.length = j at hsuf
  subst hsuf
  rw [List.drop_take] at hpre
  have hlen : 0 < n.length := List.length_pos.mpr hn
  have hle := hpre.length_le
  rw [List.length_take] at hle
  have hjk : j < k := by omega
  exact hmin j hjk (hpre.trans (List.take_prefix _ _))

/-! ## Facts about `tolower` -/

theorem isUpper_iff (c : Char) : c.isUpper = true ↔ 65 ≤ c.toNat ∧ c.toNat ≤ 90 := by
  unfold Char.isUpper
  simp only [Bool.and_eq_true, decide_eq_true_eq, ge_iff_le]
  rw [UInt32.le_def, UInt32.le_def]
  simp only [Char.toNat, UInt32.toNat, BitVec.le_def]
  exact Iff.rfl

theorem tolower_toNat (c : Char) (h : 65 ≤ c.toNat ∧ c.toNat ≤ 90) :
    (tolower c).toNat = c.toNat + 32 := by
  unfold tolower
  rw [if_pos h]
  obtain ⟨h1, h2⟩ := h
  generalize c.toNat = n at h1 h2
  interval_cases n <;> rfl

theorem tolower_not_upper (c : Char) : (tolower c).isUpper = false := by
  cases hu : (tolower c).isUpper with
  | false => rfl
  | true =>
    have h2 := (isUpper_iff _).mp hu
    by_cases h : 65 ≤ c.toNat ∧ c.toNat ≤ 90
    · have := tolower_toNat c h
      omega
    · unfold tolower at h2
      rw [if_neg h] at h2
      exact absurd h2 h

/-! ## Facts about decimal output -/

theorem digitChar_toNat (d : Nat) (h : d < 10) : (Nat.digitChar d).toNat = 48 + d := by
  interval_cases d <;> rfl

theorem toDigitsCore_append (fuel n : Nat) (ds : Str) :
    Nat.toDigitsCore 10 fuel n ds = Nat.toDigitsCore 10 fuel n [] ++ ds := by
  induction fuel generalizing n ds with
  | zero => simp [Nat.toDigitsCore]
  | succ fuel ih =>
    simp only [Nat.toDigitsCore]
    split
    · simp
    · rw [ih, ih (n / 10) [_]]
      simp

theorem decimalValue_append_singleton (s : Str) (c : Char) :
    decimalValue (s ++ [c]) = decimalValue s * 10 + (c.toNat - 48) := by
  simp [decimalValue, List.foldl_append]

theorem decimalValue_toDigitsCore (fuel n : Nat) (h : n < fuel) :
    decimalValue (Nat.toDigitsCore 10 fuel n []) = n := by
  induction fuel generalizing n with
  | zero => omega
  | succ fuel ih =>
    simp only [Nat.toDigitsCore]
    have hd := digitChar_toNat (n % 10) (Nat.mod_lt _ (by decide))
    split
    · rename_i h0
      simp only [decimalValue, List.foldl_cons, List.foldl_nil, hd]
      omega
    · rename_i h0
      rw [toDigitsCore_append, decimalValue_append_singleton, ih (n / 10) (by omega), hd]
      omega

theorem decimalValue_toDigits (n : Nat) : decimalValue (Nat.toDigits 10 n) = n :=
  decimalValue_toDigitsCore (n + 1) n (Nat.lt_succ_self n)

theorem decimalValue_zeros (k : Nat) (s : Str) :
    decimalValue (List.replicate k '0' ++ s) = decimalValue s := by
  induction k with
  | zero => simp
  | succ k ih =>
    rw [List.replicate_succ, List.cons_append]
    unfold decimalValue at ih ⊢
    rw [List.foldl_cons]
    exact ih

theorem split_unique (c : Char) (x1 x2 r1 r2 : Str) (h1 : c ∉ x1) (h2 : c ∉ x2)
    (h : x1 ++ c :: r1 = x2 ++ c :: r2) : x1 = x2 ∧ r1 = r2 := by
  induction x1 generalizing x2 with
  | nil =>
    cases x2 with
    | nil => simpa using h
    | cons b x2 =>
      simp only [List.nil_append, List.cons_append, List.cons.injEq] at h
      exact absurd (h.1 ▸ List.mem_cons_self _ _) h2
  | cons a x1 ih =>
    cases x2 with
    | nil =>
      simp only [List.nil_append, List.cons_append, List.cons.injEq] at h
      exact absurd (h.1 ▸ List.mem_cons_self _ _) h1
    | cons b x2 =>
      simp only [List.cons_append, List.cons.injEq] at h
      obtain ⟨hab, h⟩ := h
      have := ih x2 (fun hm => h1 (List.mem_cons_of_mem _ hm))
        (fun hm => h2 (List.mem_cons_of_mem _ hm)) h
      exact ⟨by rw [hab, this.1], this.2⟩

/-! ## Facts about paths -/

theorem filename_eq_self (g : Str) (hg : '/' ∉ g) : filename g = g := by
  unfold filename
  have : ∀ x ∈ g.reverse, (fun c => c != '/') x = true := by
    intro x hx
    have hx' : x ∈ g := List.mem_reverse.mp hx
    simp only [bne_iff_ne, ne_eq]
    rintro rfl
    exact hg hx'
  rw [List.takeWhile_eq_self_iff.mpr this, List.reverse_reverse]

theorem filename_append_separator (a g : Str) (hg : '/' ∉ g) :
    filename (a ++ '/' :: g) = g := by
  unfold filename
  have : ∀ x ∈ g.reverse, (fun c => c != '/') x = true := by
    intro x hx
    have hx' : x ∈ g := List.mem_reverse.mp hx
    simp only [bne_iff_ne, ne_eq]
    rintro rfl
    exact hg hx'
  rw [List.reverse_append, List.reverse_cons, List.append_assoc,
    List.takeWhile_append_of_pos this]
  simp

theorem directoryPrefix_eq_nil (g : Str) (hg : '/' ∉ g) : directoryPrefix g = [] := by
  unfold directoryPrefix
  have : ∀ x ∈ g.reverse, (fun c => c != '/') x = true := by
    intro x hx
    have hx' : x ∈ g := List.mem_reverse.mp hx
    simp only [bne_iff_ne, ne_eq]
    rintro rfl
    exact hg hx'
  rw [List.dropWhile_eq_nil_iff.mpr this, List.reverse_nil]

theorem directoryPrefix_append_separator (a g : Str) (hg : '/' ∉ g) :
    directoryPrefix (a ++ '/' :: g) = a ++ ['/'] := by
  unfold directoryPrefix
  have : ∀ x ∈ g.reverse, (fun c => c != '/') x = true := by
    intro x hx
    have hx' : x ∈ g := List.mem_reverse.mp hx
    simp only [bne_iff_ne, ne_eq]
    rintro rfl
    exact hg hx'
  rw [List.reverse_append, List.reverse_cons, List.append_assoc,
    List.dropWhile_append_of_pos this]
  simp

theorem filename_no_separator (p : Path) : '/' ∉ filename p := by
  unfold filename
  intro h
  have h' := List.mem_takeWhile_imp (List.mem_reverse.mp h)
  simp at h'

theorem has_relative_path_of_mem (p : Path) (c : Char) (hc : c ∈ p) (hne : c ≠ '/') :
    has_relative_path p = true := by
  unfold has_relative_path
  rw [List.any_eq_true]
  exact ⟨c, hc, by simpa using hne⟩

theorem has_relative_path_of_filename (p : Path) (h : filename p ≠ []) :
    has_relative_path p = true := by
  obtain ⟨c, hc⟩ := List.exists_mem_of_ne_nil _ h
  have hne : c ≠ '/' := fun e => filename_no_separator p (e ▸ hc)
  refine has_relative_path_of_mem p c ?_ hne
  unfold filename at hc
  exact List.mem_reverse.mp ((List.takeWhile_sublist _).subset (List.mem_reverse.mp hc))

theorem parent_path_shape (p : Path) (h : filename p ≠ []) : ParentShape (parent_path p) := by
  unfold parent_path
  rw [has_relative_path_of_filename p h, if_pos rfl]
  dsimp only
  by_cases hd : stripSeparators (directoryPrefix p) = []
  · by_cases hq : directoryPrefix p = []
    · left
      rw [if_neg (fun hh => hh.2 hq)]
      exact hd
    · right; left
      rw [if_pos ⟨hd, hq⟩]
  · right; right
    rw [if_neg (fun hh => hd hh.1)]
    unfold stripSeparators at hd ⊢
    rw [List.reverse_reverse]
    cases hr : List.dropWhile (fun c => c == '/') (directoryPrefix p).reverse with
    | nil => rw [hr] at hd; exact absurd rfl hd
    | cons x r =>
      refine ⟨x, r, rfl, ?_⟩
      have := List.head?_dropWhile_not (fun c => c == '/') (directoryPrefix p).reverse
      rw [hr] at this
      simpa using this

theorem parent_path_append (d g : Path) (hd : ParentShape d) (hg : g ≠ []) (hs : '/' ∉ g) :
    parent_path (append d g) = d := by
  obtain ⟨c, g', rfl⟩ := List.exists_cons_of_ne_nil hg
  have hc : c ≠ '/' := fun e => hs (e ▸ List.mem_cons_self _ _)
  have hhead : ¬ (c :: g').head? = some '/' := by simpa using hc
  rcases hd with rfl | rfl | ⟨x, r, hx, hne⟩
  · have ha : append [] (c :: g') = c :: g' := by
      unfold append
      rw [if_neg hhead]
      simp [filename]
    rw [ha]
    unfold parent_path
    rw [has_relative_path_of_mem _ c (List.mem_cons_self _ _) hc, if_pos rfl,
      directoryPrefix_eq_nil _ hs]
    simp [stripSeparators]
  · have ha : append ['/'] (c :: g') = [] ++ '/' :: (c :: g') := by
      unfold append
      rw [if_neg hhead]
      simp [filename]
    rw [ha]
    unfold parent_path
    rw [has_relative_path_of_mem _ c (by simp) hc, if_pos rfl,
      directoryPrefix_append_separator _ _ hs]
    simp [stripSeparators]
  · have hdne : d ≠ [] := by
      intro e; rw [e] at hx; cases hx
    have hf : filename d ≠ [] := by
      unfold filename
      rw [hx, List.takeWhile_cons_of_pos (by simpa using hne)]
      simp
    have ha : append d (c :: g') = d ++ '/' :: (c :: g') := by
      unfold append
      rw [if_neg hhead, if_pos hf]
    rw [ha]
    unfold parent_path
    rw [has_relative_path_of_mem _ c (by simp) hc, if_pos rfl,
      directoryPrefix_append_separator _ _ hs]
    have hstrip : stripSeparators (d ++ ['/']) = d := by
      unfold stripSeparators
      rw [List.reverse_append, hx]
      simp only [List.reverse_cons, List.reverse_nil, List.nil_append, List.singleton_append]
      rw [List.dropWhile_cons_of_pos (by simp), List.dropWhile_cons_of_neg (by simpa using hne)]
      rw [← hx, List.reverse_reverse]
    rw [hstrip]
    simp [hdne]

theorem filename_append (d g : Path) (hg : g ≠ []) (hs : '/' ∉ g) :
    filename (append d g) = g := by
  obtain ⟨c, g', rfl⟩ := List.exists_cons_of_ne_nil hg
  have hc : c ≠ '/' := fun e => hs (e ▸ List.mem_cons_self _ _)
  have hhead : ¬ (c :: g').head? = some '/' := by simpa using hc
  unfold append
  rw [if_neg hhead]
  by_cases hf : filename d = []
  · rw [if_neg (not_not.mpr hf)]
    -- `d` is empty or ends with a separator
    unfold filename at hf
    rw [List.reverse_eq_nil_iff] at hf
    cases hr : d.reverse with
    | nil =>
      have : d = [] := List.reverse_eq_nil_iff.mp hr
      rw [this, List.nil_append]
      exact filename_eq_self _ hs
    | cons x r =>
      rw [hr] at hf
      have hx : x = '/' := by
        by_contra hne
        rw [List.takeWhile_cons_of_pos (by simpa using hne)] at hf
        cases hf
      have hd : d = r.reverse ++ ['/'] := by
        rw [← List.reverse_reverse d, hr, List.reverse_cons, hx]
      rw [hd, List.append_assoc, List.singleton_append]
      exact filename_append_separator _ _ hs
  · rw [if_pos hf]
    exact filename_append_separator _ _ hs

theorem rfind_eq_none (b : Str) (c : Char) (h : c ∉ b) : rfind b c = none := by
  induction b with
  | nil => rfl
  | cons x t ih =>
    have hx : ¬ x = c := fun e => h (e ▸ List.mem_cons_self _ _)
    simp only [rfind, ih (fun hm => h (List.mem_cons_of_mem _ hm)), hx, if_false]

theorem rfind_append (s b : Str) (c : Char) (h : c ∉ b) :
    rfind (s ++ c :: b) c = some s.length := by
  induction s with
  | nil => simp only [List.nil_append, rfind, rfind_eq_none b c h, if_true, List.length_nil]
  | cons x t ih =>
    rw [List.cons_append, rfind, ih, List.length_cons]

theorem stem_isPrefix_filename (p : Path) : stem p <+: filename p := by
  unfold stem
  dsimp only
  split
  · exact List.prefix_refl _
  · exact List.prefix_refl _
  · split
    · exact List.prefix_refl _
    · exact List.take_prefix _ _

theorem stem_no_separator (p : Path) : '/' ∉ stem p :=
  fun h => filename_no_separator p ((stem_isPrefix_filename p).subset h)

theorem stem_ne_nil (p : Path) (h : filename p ≠ []) : stem p ≠ [] := by
  unfold stem
  dsimp only
  split
  · exact h
  · exact h
  · split
    · exact h
    · obtain ⟨c, t, hc⟩ := List.exists_cons_of_ne_nil h
      rw [hc, List.take_succ_cons]
      exact List.cons_ne_nil _ _

theorem stem_of_filename (p : Path) (s e : Str) (hf : filename p = s ++ '.' :: e)
    (hs : s ≠ []) (he : '.' ∉ e) (hlen : 2 < (s ++ '.' :: e).length) : stem p = s := by
  obtain ⟨c, t, rfl⟩ := List.exists_cons_of_ne_nil hs
  unfold stem
  dsimp only
  rw [hf, rfind_append _ _ _ he, List.length_cons]
  have hne : ¬ (c :: t ++ '.' :: e) = "..".toList := by
    intro h
    have := congrArg List.length h
    rw [this] at hlen
    exact absurd hlen (by decide)
  simp only [hne, if_false]
  rw [← List.length_cons c t, List.take_left]

theorem extension_of_filename (p : Path) (s e : Str) (hf : filename p = s ++ '.' :: e)
    (hs : s ≠ []) (he : '.' ∉ e) (hlen : 2 < (s ++ '.' :: e).length) :
    extension p = '.' :: e := by
  unfold extension
  rw [stem_of_filename p s e hf hs he hlen, hf, List.drop_left]

theorem getBasename_eq_of_stem_eq (p q : Path) (h : stem p = stem q) :
    getBasename p = getBasename q := by
  unfold getBasename
  rw [h]

/-! ## Classification heuristic: the contract -/

/-- C1: `isStaticAnimation` returns true exactly when the lowercased name contains
neither `eyeclose` nor `eye_close` and, if it contains `idle`, the asset has at most
one animation; a name with an eye-close marker is never static; and the four
documented examples evaluate as stated. -/
theorem isStaticAnimation_spec (animation_name : Str) (n : Nat) :
    (isStaticAnimation n animation_name = true ↔
      (¬ "eyeclose".toList <:+: toLowercase animation_name ∧
       ¬ "eye_close".toList <:+: toLowercase animation_name ∧
       ("idle".toList <:+: toLowercase animation_name → n ≤ 1))) ∧
    ("eyeclose".toList <:+: toLowercase animation_name ∨
        "eye_close".toList <:+: toLowercase animation_name →
      isStaticAnimation n animation_name = false) ∧
    isStaticAnimation 5 "Idle_EyeClose".toList = false ∧
    isStaticAnimation 1 "idle".toList = true ∧
    isStaticAnimation 3 "idle".toList = false ∧
    isStaticAnimation 3 "attack".toList = true := by
  have key : isStaticAnimation n animation_name = true ↔
      (¬ "eyeclose".toList <:+: toLowercase animation_name ∧
       ¬ "eye_close".toList <:+: toLowercase animation_name ∧
       ("idle".toList <:+: toLowercase animation_name → n ≤ 1)) := by
    unfold isStaticAnimation
    by_cases h1 : contains (toLowercase animation_name)
        ["eyeclose".toList, "eye_close".toList] = true
    · have h1' := (contains_iff _ _).mp h1
      simp only [h1, if_true]
      simp only [List.mem_cons, List.mem_singleton, List.not_mem_nil, or_false,
        exists_eq_or_imp, exists_eq_left] at h1'
      constructor
      · intro h; cases h
      · rintro ⟨a, b, -⟩
        rcases h1' with h | h
        · exact absurd h a
        · exact absurd h b
    · have h1' : ¬ ∃ v ∈ ["eyeclose".toList, "eye_close".toList],
          v <:+: toLowercase animation_name := fun h => h1 ((contains_iff _ _).mpr h)
      simp only [List.mem_cons, List.mem_singleton, List.not_mem_nil, or_false,
        exists_eq_or_imp, exists_eq_left, not_or] at h1'
      simp only [h1, Bool.false_eq_true, if_false]
      by_cases h2 : contains (toLowercase animation_name) ["idle".toList] = true
      · have h2' := (contains_iff _ _).mp h2
        simp only [List.mem_singleton, exists_eq_left] at h2'
        simp only [h2, if_true, decide_eq_true_eq]
        exact ⟨fun h => ⟨h1'.1, h1'.2, fun _ => h⟩, fun h => h.2.2 h2'⟩
      · have h2' : ¬ ∃ v ∈ ["idle".toList], v <:+: toLowercase animation_name :=
          fun h => h2 ((contains_iff _ _).mpr h)
        simp only [List.mem_singleton, exists_eq_left] at h2'
        simp only [h2, Bool.false_eq_true, if_false, true_iff]
        exact ⟨h1'.1, h1'.2, fun h => absurd h h2'⟩
  refine ⟨key, ?_, by decide, by decide, by decide, by decide⟩
  intro h
  cases hs : isStaticAnimation n animation_name with
  | false => rfl
  | true =>
    have := key.mp hs
    rcases h with h | h
    · exact absurd h this.1
    · exact absurd h this.2.1

/-! ## Character identifier -/

/-- C2: `getBasename` returns the lowercased stem cut at the first position where
`_spr` starts in the lowercased stem (the prefix before that position), and the
whole lowercased stem when `_spr` does not occur in it; a stem `Character_Spr`
gives `character` and a stem `Boss01` gives `boss01`. -/
theorem getBasename_spec (filepath : Path) :
    (∀ k, "_spr".toList <+: (toLowercase (stem filepath)).drop k →
        (∀ j < k, ¬ "_spr".toList <+: (toLowercase (stem filepath)).drop j) →
        getBasename filepath = (toLowercase (stem filepath)).take k) ∧
    (¬ "_spr".toList <:+: toLowercase (stem filepath) →
        getBasename filepath = toLowercase (stem filepath)) ∧
    (stem filepath = "Character_Spr".toList → getBasename filepath = "character".toList) ∧
    (stem filepath = "Boss01".toList → getBasename filepath = "boss01".toList) := by
  refine ⟨?_, ?_, ?_, ?_⟩
  · intro k h1 h2
    have h := (find_eq_some_iff (toLowercase (stem filepath)) "_spr".toList k).mpr ⟨h1, h2⟩
    simp only [getBasename, h]
  · intro hno
    have h := (find_eq_none_iff (toLowercase (stem filepath)) "_spr".toList).mpr hno
    simp only [getBasename, h]
  · intro hs
    simp only [getBasename, hs]
    decide
  · intro hs
    simp only [getBasename, hs]
    decide

/-- C9: the character identifier holds no ASCII uppercase letter and does not
contain `_spr`. -/
theorem getBasename_invariant (filepath : Path) :
    (∀ c ∈ getBasename filepath, c.isUpper = false ∧ ¬ (65 ≤ c.toNat ∧ c.toNat ≤ 90)) ∧
    ¬ "_spr".toList <:+: getBasename filepath := by
  have hlow : ∀ c ∈ toLowercase (stem filepath),
      c.isUpper = false ∧ ¬ (65 ≤ c.toNat ∧ c.toNat ≤ 90) := by
    intro c hc
    obtain ⟨a, -, rfl⟩ := List.mem_map.mp hc
    refine ⟨tolower_not_upper a, fun h => ?_⟩
    have := (isUpper_iff (tolower a)).mpr h
    rw [tolower_not_upper] at this
    cases this
  cases hf : find (toLowercase (stem filepath)) "_spr".toList with
  | none =>
    have hb : getBasename filepath = toLowercase (stem filepath) := by
      simp only [getBasename, hf]
    rw [hb]
    exact ⟨hlow, (find_eq_none_iff _ _).mp hf⟩
  | some k =>
    have hb : getBasename filepath = (toLowercase (stem filepath)).take k := by
      simp only [getBasename, hf]
    rw [hb]
    refine ⟨fun c hc => hlow c (List.mem_of_mem_take hc), ?_⟩
    exact (find_eq_none_iff _ _).mp (find_take_eq_none _ _ k (by decide) hf)

/-! ## Output file names -/

/-- C3: without a frame index `getFilename` returns
`baseId ++ "--" ++ animationName ++ "." ++ extension`; with a frame index
`0 ≤ i ≤ 32767` and pad width `w` it returns
`baseId ++ "--" ++ animationName ++ "-" ++ d ++ "." ++ extension`, where `d` is the
decimal representation of `i` left-padded with `0` to `w` characters (so `d` has
`max w (number of digits)` characters and denotes `i`); the two documented
examples evaluate as stated. -/
theorem getFilename_spec (baseId animationName file_extension : Str) (i : Int) (w : Nat)
    (h0 : 0 ≤ i) (h1 : i ≤ 32767) :
    getFilename baseId animationName file_extension (-1) w =
      baseId ++ "--".toList ++ animationName ++ ".".toList ++ file_extension ∧
    getFilename baseId animationName file_extension i w =
      baseId ++ "--".toList ++ animationName ++ "-".toList ++ zeroPadded w i.toNat ++
        ".".toList ++ file_extension ∧
    (zeroPadded w i.toNat).length = max w (Nat.repr i.toNat).length ∧
    decimalValue (zeroPadded w i.toNat) = i.toNat ∧
    decimalValue (Nat.repr i.toNat).toList = i.toNat ∧
    getFilename "hero".toList "idle".toList "png".toList (-1) 6 = "hero--idle.png".toList ∧
    getFilename "hero".toList "walk".toList "png".toList 7 6 =
      "hero--walk-000007.png".toList := by
  have hrepr : ∀ n : Nat, (Nat.repr n).toList = Nat.toDigits 10 n := fun _ => rfl
  have hlen : ∀ n : Nat, (Nat.repr n).length = (Nat.toDigits 10 n).length := fun _ => rfl
  refine ⟨?_, ?_, ?_, ?_, ?_, by decide, by decide⟩
  · simp [getFilename]
  · have hne : i ≠ -1 := by omega
    have hnn : ¬ i < 0 := by omega
    have habs : i.natAbs = i.toNat := by omega
    simp only [getFilename, putShort, zeroPadded, hne, hnn, habs, hrepr, hlen, ne_eq,
      not_false_eq_true, if_true, if_false]
    simp
  · simp only [zeroPadded, List.length_append, List.length_replicate, hrepr, hlen]
    omega
  · rw [zeroPadded, decimalValue_zeros, hrepr, decimalValue_toDigits]
  · rw [hrepr, decimalValue_toDigits]

/-- C3, at the frame index 7 of the documented example. -/
theorem getFilename_spec_witness :
    (0 : Int) ≤ 7 ∧ (7 : Int) ≤ 32767 ∧
    getFilename "hero".toList "walk".toList "png".toList 7 6 =
      "hero".toList ++ "--".toList ++ "walk".toList ++ "-".toList ++ zeroPadded 6 7 ++
        ".".toList ++ "png".toList :=
  ⟨by decide, by decide,
    (getFilename_spec "hero".toList "walk".toList "png".toList 7 6 (by decide) (by decide)).2.1⟩

/-- C4 fails as stated: with the extension `png` and the default pad width, the
triples (`a--b`, `c`, no index) and (`a`, `b--c`, no index) differ and get the same
file name, and so do (`a`, `b-000007`, no index) and (`a`, `b`, index 7). -/
theorem getFilename_not_injective :
    (("a--b".toList, "c".toList, (-1 : Int)) ≠ ("a".toList, "b--c".toList, (-1 : Int)) ∧
      getFilename "a--b".toList "c".toList "png".toList (-1) 6 =
        getFilename "a".toList "b--c".toList "png".toList (-1) 6) ∧
    (("a".toList, "b-000007".toList, (-1 : Int)) ≠ ("a".toList, "b".toList, (7 : Int)) ∧
      getFilename "a".toList "b-000007".toList "png".toList (-1) 6 =
        getFilename "a".toList "b".toList "png".toList 7 6) := by
  decide

/-- Equal file names come from equal identifiers, animation names and frame
indices, when identifiers and animation names hold no `-`. -/
theorem getFilename_eq_imp (file_extension : Str) (w : Nat)
    (b1 a1 b2 a2 : Str) (i1 i2 : Int)
    (hb1 : '-' ∉ b1) (ha1 : '-' ∉ a1) (hb2 : '-' ∉ b2) (ha2 : '-' ∉ a2)
    (hi1 : -1 ≤ i1) (hi2 : -1 ≤ i2)
    (h : getFilename b1 a1 file_extension i1 w = getFilename b2 a2 file_extension i2 w) :
    b1 = b2 ∧ a1 = a2 ∧ i1 = i2 := by
  have hpad : ∀ i : Int, 0 ≤ i → decimalValue (putShort '0' w i) = i.natAbs := by
    intro i hi
    have hnn : ¬ i < 0 := by omega
    simp only [putShort, hnn, if_false]
    rw [decimalValue_zeros, decimalValue_toDigits]
  -- the part of the name before the extension
  have hform : ∀ (b a : Str) (i : Int),
      getFilename b a file_extension i w =
        (b ++ '-' :: ('-' :: (a ++ if i ≠ -1 then '-' :: putShort '0' w i else []))) ++
          '.' :: file_extension := by
    intro b a i
    unfold getFilename
    by_cases hi : i = -1
    · simp [hi]
    · simp [hi]
  rw [hform, hform] at h
  have h' := List.append_cancel_right h
  obtain ⟨hb, hrest⟩ := split_unique '-' b1 b2 _ _ hb1 hb2 h'
  have hrest' : (a1 ++ if i1 ≠ -1 then '-' :: putShort '0' w i1 else []) =
      (a2 ++ if i2 ≠ -1 then '-' :: putShort '0' w i2 else []) := by
    simpa using hrest
  refine ⟨hb, ?_⟩
  by_cases e1 : i1 = -1 <;> by_cases e2 : i2 = -1
  · simp only [e1, e2, ne_eq, not_true_eq_false, if_false, List.append_nil] at hrest'
    exact ⟨hrest', by rw [e1, e2]⟩
  · simp only [e1, e2, ne_eq, not_true_eq_false, not_false_eq_true, if_true, if_false,
      List.append_nil] at hrest'
    exact absurd (hrest' ▸ List.mem_append_right a2 (List.mem_cons_self _ _)) ha1
  · simp only [e1, e2, ne_eq, not_true_eq_false, not_false_eq_true, if_true, if_false,
      List.append_nil] at hrest'
    exact absurd (hrest'.symm ▸ List.mem_append_right a1 (List.mem_cons_self _ _)) ha2
  · simp only [e1, e2, ne_eq, not_false_eq_true, if_true] at hrest'
    obtain ⟨ha, hp⟩ := split_unique '-' a1 a2 _ _ ha1 ha2 hrest'
    refine ⟨ha, ?_⟩
    have hv := congrArg decimalValue hp
    rw [hpad i1 (by omega), hpad i2 (by omega)] at hv
    omega

/-- C4, amended: for a fixed extension and a fixed pad width, `getFilename` is
injective on the triples whose identifier and animation name hold no `-`, the
frame index being absent (`-1`) or non-negative: two such triples that differ in
the identifier, the animation name or the frame index get different file names. -/
theorem getFilename_injective (file_extension : Str) (w : Nat)
    (b1 a1 b2 a2 : Str) (i1 i2 : Int)
    (hb1 : '-' ∉ b1) (ha1 : '-' ∉ a1) (hb2 : '-' ∉ b2) (ha2 : '-' ∉ a2)
    (hi1 : -1 ≤ i1) (hi2 : -1 ≤ i2)
    (hne : b1 ≠ b2 ∨ a1 ≠ a2 ∨ i1 ≠ i2) :
    getFilename b1 a1 file_extension i1 w ≠ getFilename b2 a2 file_extension i2 w := by
  intro h
  obtain ⟨hb, ha, hi⟩ :=
    getFilename_eq_imp file_extension w b1 a1 b2 a2 i1 i2 hb1 ha1 hb2 ha2 hi1 hi2 h
  rcases hne with hne | hne | hne
  · exact hne hb
  · exact hne ha
  · exact hne hi

/-- C4 amended, at a frame of `walk` against the static image of `walk`. -/
theorem getFilename_injective_witness :
    getFilename "hero".toList "walk".toList "png".toList 7 6 ≠
      getFilename "hero".toList "walk".toList "png".toList (-1) 6 :=
  getFilename_injective "png".toList 6 "hero".toList "walk".toList "hero".toList
    "walk".toList 7 (-1) (by decide) (by decide) (by decide) (by decide) (by decide)
    (by decide) (by decide)

/-! ## Directory walker -/

theorem walk_eq_foldlM {α ε : Type} (draw : Path → Path → α → Except ε α)
    (entries : List Path) (s : α) :
    walk draw entries s =
      (entries.filter (fun p => decide (isCharacterSkeleton p))).foldlM
        (fun s p => draw p (getAtlasPath p) s) s := by
  induction entries generalizing s with
  | nil => rfl
  | cons e es ih =>
    unfold walk
    by_cases h1 : extension e = ".skel".toList
    · by_cases h2 : contains (toLowercase (stem e)) ["home".toList, "scene".toList] = true
      · have hsel : ¬ isCharacterSkeleton e := by
          rintro ⟨-, ha, hb⟩
          obtain ⟨v, hv, hin⟩ := (contains_iff _ _).mp h2
          simp only [List.mem_cons, List.mem_singleton, List.not_mem_nil, or_false] at hv
          rcases hv with rfl | rfl
          · exact ha hin
          · exact hb hin
        simp only [h1, h2, if_true, List.filter_cons, hsel, decide_False,
          Bool.false_eq_true, if_false]
        exact ih s
      · have hsel : isCharacterSkeleton e := by
          refine ⟨h1, fun ha => h2 ?_, fun hb => h2 ?_⟩
          · exact (contains_iff _ _).mpr ⟨_, List.mem_cons_self _ _, ha⟩
          · exact (contains_iff _ _).mpr
              ⟨_, List.mem_cons_of_mem _ (List.mem_cons_self _ _), hb⟩
        simp only [h1, h2, if_true, List.filter_cons, hsel, decide_True,
          Bool.false_eq_true, if_false, List.foldlM_cons]
        cases hd : draw e (getAtlasPath e) s with
        | error err => rfl
        | ok s1 => exact ih s1
    · have hsel : ¬ isCharacterSkeleton e := fun h => h1 h.1
      simp only [h1, if_false, List.filter_cons, hsel, decide_False, Bool.false_eq_true]
      exact ih s

theorem foldlM_record (l acc : List Path) :
    l.foldlM (fun (log : List Path) p => (Except.ok (log ++ [p]) : Except Unit (List Path)))
      acc = Except.ok (acc ++ l) := by
  induction l generalizing acc with
  | nil => simp [pure, Except.pure]
  | cons a l ih =>
    rw [List.foldlM_cons]
    show l.foldlM _ (acc ++ [a]) = _
    rw [ih]
    simp

theorem foldlM_ok {α ε : Type} (f : α → Path → α) (l : List Path) (s : α) :
    l.foldlM (fun s p => (Except.ok (f s p) : Except ε α)) s = Except.ok (l.foldl f s) := by
  induction l generalizing s with
  | nil => rfl
  | cons a l ih =>
    rw [List.foldlM_cons, List.foldl_cons]
    exact ih (f s a)

theorem passedPaths_eq_filter (entries : List Path) :
    passedPaths entries = entries.filter (fun p => decide (isCharacterSkeleton p)) := by
  unfold passedPaths
  rw [walk_eq_foldlM, foldlM_record, List.nil_append]

theorem stem_eq_of_filename_eq (p q : Path) (h : filename p = filename q) :
    stem p = stem q := by
  unfold stem
  rw [h]

/-- C5: the walker passes a path to `drawCharacterSprite` exactly when its extension
is `.skel` and its lowercased stem contains neither `home` nor `scene`: the paths
passed are the enumerated entries that satisfy this, in enumeration order (for any
action standing for `drawCharacterSprite`, throwing or not, and for `main` itself,
up to the first exception); entries named `Home.skel` or `town_scene.skel` are never
passed. -/
theorem walker_spec {σ : Type} (B : Backend σ) (dest_dir : Path) (file_extension : Str)
    (fs : FileSystem) (entries : List Path) :
    passedPaths entries = entries.filter (fun p => decide (isCharacterSkeleton p)) ∧
    (∀ p, p ∈ passedPaths entries ↔ p ∈ entries ∧ isCharacterSkeleton p) ∧
    (passedPaths entries).Sublist entries ∧
    (∀ p, filename p = "Home.skel".toList ∨ filename p = "town_scene.skel".toList →
      p ∉ passedPaths entries) ∧
    (∀ (α ε : Type) (draw : Path → Path → α → Except ε α) (s : α),
      walk draw entries s =
        (passedPaths entries).foldlM (fun s p => draw p (getAtlasPath p) s) s) ∧
    (∀ (α ε : Type) (draw : Path → Path → α → α) (s : α),
      walk (fun p q s => (Except.ok (draw p q s) : Except ε α)) entries s =
        Except.ok ((passedPaths entries).foldl (fun s p => draw p (getAtlasPath p) s) s)) ∧
    main B dest_dir file_extension entries fs =
      (match ensureDirectory fs dest_dir with
        | Except.error left => Except.error left
        | Except.ok fs1 =>
          (passedPaths entries).foldlM
            (fun fs p => drawCharacterSprite B dest_dir file_extension p (getAtlasPath p) fs)
            fs1) := by
  have hp := passedPaths_eq_filter entries
  refine ⟨hp, ?_, ?_, ?_, ?_, ?_, ?_⟩
  · intro p
    rw [hp, List.mem_filter, decide_eq_true_eq]
  · rw [hp]
    exact List.filter_sublist _
  · intro p hname hmem
    rw [hp, List.mem_filter, decide_eq_true_eq] at hmem
    obtain ⟨-, -, hhome, hscene⟩ := hmem
    rcases hname with h | h
    · have hs : stem p = stem "Home.skel".toList := stem_eq_of_filename_eq p _ (by rw [h]; decide)
      rw [hs] at hhome
      exact absurd (by decide) hhome
    · have hs : stem p = stem "town_scene.skel".toList :=
        stem_eq_of_filename_eq p _ (by rw [h]; decide)
      rw [hs] at hscene
      exact absurd (by decide) hscene
  · intro α ε draw s
    rw [hp]
    exact walk_eq_foldlM draw entries s
  · intro α ε draw s
    rw [hp, walk_eq_foldlM]
    exact foldlM_ok (fun s p => draw p (getAtlasPath p) s) _ s
  · unfold main
    rw [hp]
    cases ensureDirectory fs dest_dir with
    | error left => rfl
    | ok fs1 => exact walk_eq_foldlM _ entries fs1

/-! ## Companion atlas path -/

/-- C6: for a skeleton path that names a file (its file name is not empty),
`getAtlasPath` returns a path with the same parent directory and the same stem and
with the extension `.atlas`, so the character identifier derived from the atlas
path is the one derived from the skeleton path. -/
theorem getAtlasPath_spec (skel_filepath : Path) (h : filename skel_filepath ≠ []) :
    parent_path (getAtlasPath skel_filepath) = parent_path skel_filepath ∧
    stem (getAtlasPath skel_filepath) = stem skel_filepath ∧
    extension (getAtlasPath skel_filepath) = ".atlas".toList ∧
    getBasename (getAtlasPath skel_filepath) = getBasename skel_filepath := by
  have hs : stem skel_filepath ≠ [] := stem_ne_nil _ h
  have hg : stem skel_filepath ++ ".atlas".toList ≠ [] := by
    intro e
    exact hs (List.append_eq_nil.mp e).1
  have hsep : '/' ∉ stem skel_filepath ++ ".atlas".toList := by
    intro hm
    rcases List.mem_append.mp hm with hm | hm
    · exact stem_no_separator _ hm
    · exact absurd hm (by decide)
  have hf : filename (getAtlasPath skel_filepath) =
      stem skel_filepath ++ '.' :: "atlas".toList :=
    filename_append _ _ hg hsep
  have hlen : 2 < (stem skel_filepath ++ '.' :: "atlas".toList).length := by
    rw [List.length_append]
    have : ('.' :: "atlas".toList).length = 6 := rfl
    omega
  have hstem := stem_of_filename _ _ _ hf hs (by decide) hlen
  refine ⟨?_, hstem, extension_of_filename _ _ _ hf hs (by decide) hlen,
    getBasename_eq_of_stem_eq _ _ hstem⟩
  exact parent_path_append _ _ (parent_path_shape _ h) hg hsep

/-- C6, at the skeleton `chars/Hero_spr.skel`. -/
theorem getAtlasPath_spec_witness :
    filename "chars/Hero_spr.skel".toList ≠ [] ∧
    parent_path (getAtlasPath "chars/Hero_spr.skel".toList) = "chars".toList ∧
    stem (getAtlasPath "chars/Hero_spr.skel".toList) = "Hero_spr".toList ∧
    extension (getAtlasPath "chars/Hero_spr.skel".toList) = ".atlas".toList ∧
    getBasename (getAtlasPath "chars/Hero_spr.skel".toList) = "hero".toList :=
  ⟨by decide, getAtlasPath_spec "chars/Hero_spr.skel".toList (by decide)⟩

/-- For a path without a file name the atlas path is the bare extension, whose
stem is `.atlas` and whose extension is empty. -/
theorem getAtlasPath_without_filename :
    getAtlasPath "chars/".toList = "chars/.atlas".toList ∧
    stem (getAtlasPath "chars/".toList) = ".atlas".toList ∧
    extension (getAtlasPath "chars/".toList) = [] := by
  decide

/-! ## Export orchestrator -/

theorem drawCharacterSprite_of_failure {σ : Type} (B : Backend σ) (dest_dir : Path)
    (file_extension : Str) (skel_filepath atlas_filepath : Path) (fs : FileSystem)
    (hfail : ∀ data, B.readSkeletonBinaryData skel_filepath atlas_filepath = some data →
      B.rendererCreate data = false) :
    drawCharacterSprite B dest_dir file_extension skel_filepath atlas_filepath fs =
      Except.ok fs := by
  unfold drawCharacterSprite
  cases hl : B.readSkeletonBinaryData skel_filepath atlas_filepath with
  | none => rfl
  | some data => simp [hfail data hl]


/-! ## Facts about pathname resolution -/

theorem components_ne_nil (p : Path) : components p ≠ [] := by
  cases p with
  | nil => simp [components]
  | cons c t =>
    unfold components
    split
    · simp
    · split <;> simp

theorem components_separator (t : Path) : components ('/' :: t) = [] :: components t := by
  conv_lhs => unfold components
  simp

theorem components_cons (c : Char) (t : Path) (h : Str) (r : List Str) (hc : c ≠ '/')
    (ht : components t = h :: r) : components (c :: t) = (c :: h) :: r := by
  conv_lhs => unfold components
  simp [hc, ht]

theorem components_append_separator (a b : Path) :
    components (a ++ '/' :: b) = components a ++ components b := by
  induction a with
  | nil =>
    rw [List.nil_append, components_separator]
    rfl
  | cons c t ih =>
    rw [List.cons_append]
    by_cases hc : c = '/'
    · rw [hc, components_separator, components_separator, ih, List.cons_append]
    · cases hct : components t with
      | nil => exact absurd hct (components_ne_nil t)
      | cons h r =>
        rw [components_cons c t h r hc hct,
          components_cons c (t ++ '/' :: b) h (r ++ components b) hc (by rw [ih, hct]; rfl)]
        rfl

theorem components_of_no_separator (f : Str) (hf : '/' ∉ f) : components f = [f] := by
  induction f with
  | nil => rfl
  | cons c t ih =>
    have hc : c ≠ '/' := fun e => hf (e ▸ List.mem_cons_self _ _)
    exact components_cons c t t [] hc (ih (fun h => hf (List.mem_cons_of_mem _ h)))

theorem segments_append_separator (a b : Path) :
    segments (a ++ '/' :: b) = segments a ++ segments b := by
  unfold segments
  rw [components_append_separator, List.filter_append]

theorem segments_of_no_separator (f : Str) (hf : '/' ∉ f) (hne : f ≠ []) :
    segments f = [f] := by
  unfold segments
  rw [components_of_no_separator f hf]
  simp [hne]

theorem segments_nil : segments [] = [] := by
  decide

theorem eq_append_separator_of_filename_eq_nil (p : Path) (hp : p ≠ [])
    (hf : filename p = []) : ∃ a, p = a ++ ['/'] := by
  unfold filename at hf
  rw [List.reverse_eq_nil_iff] at hf
  cases hr : p.reverse with
  | nil => exact absurd (List.reverse_eq_nil_iff.mp hr) hp
  | cons x r =>
    rw [hr] at hf
    have hx : x = '/' := by
      by_contra hne
      rw [List.takeWhile_cons_of_pos (by simpa using hne)] at hf
      cases hf
    refine ⟨r.reverse, ?_⟩
    rw [← List.reverse_reverse p, hr, List.reverse_cons, hx]

theorem getLast?_append_cons (u : Str) (c : Char) (g : Str) :
    (u ++ c :: g).getLast? = (c :: g).getLast? := by
  induction u with
  | nil => rfl
  | cons x u ih =>
    cases hu : u ++ c :: g with
    | nil => simp at hu
    | cons y w =>
      rw [List.cons_append, hu, List.getLast?_cons_cons, ← hu, ih]

/-- The pathname of a file placed in a directory named by a non-empty pathname. -/
theorem append_file (p f : Path) (hp : p ≠ []) (hf : '/' ∉ f) (hne : f ≠ []) :
    segments (append p f) = segments p ++ [f] ∧
    (append p f).head? = p.head? ∧ append p f ≠ [] ∧
    (append p f).getLast? = f.getLast? := by
  obtain ⟨c, g, rfl⟩ := List.exists_cons_of_ne_nil hne
  have hc : c ≠ '/' := fun e => hf (e ▸ List.mem_cons_self _ _)
  have hhead : ¬ (c :: g).head? = some '/' := by simpa using hc
  obtain ⟨x, t, rfl⟩ := List.exists_cons_of_ne_nil hp
  unfold append
  rw [if_neg hhead]
  by_cases hfn : filename (x :: t) = []
  · rw [if_neg (not_not.mpr hfn)]
    obtain ⟨a, ha⟩ := eq_append_separator_of_filename_eq_nil (x :: t) hp hfn
    refine ⟨?_, by simp, by simp, getLast?_append_cons _ _ _⟩
    rw [ha, List.append_assoc, List.singleton_append, segments_append_separator,
      segments_of_no_separator _ hf hne, segments_append_separator, segments_nil,
      List.append_nil]
  · rw [if_pos hfn]
    refine ⟨?_, by simp, by simp, ?_⟩
    · rw [segments_append_separator, segments_of_no_separator _ hf hne]
    · exact getLast?_append_cons (x :: t ++ ['/']) c g ▸ by simp

theorem resolveFrom_cons (fs : FileSystem) (cur : Location) (name : Str) (rest : List Str) :
    resolveFrom fs cur (name :: rest) =
      (step fs cur name).bind (fun next => resolveFrom fs next rest) := by
  conv_lhs => unfold resolveFrom
  cases step fs cur name <;> rfl

theorem resolveFrom_append (fs : FileSystem) (cur : Location) (xs ys : List Str) :
    resolveFrom fs cur (xs ++ ys) =
      (resolveFrom fs cur xs).bind (fun l => resolveFrom fs l ys) := by
  induction xs generalizing cur with
  | nil => rfl
  | cons x xs ih =>
    rw [List.cons_append, resolveFrom_cons, resolveFrom_cons]
    cases step fs cur x with
    | none => rfl
    | some next => exact ih next

theorem kindAt_add_self (fs : FileSystem) (l : Location) (k : Kind) (imgs : List Path)
    (h : kindAt fs l = none) :
    kindAt ⟨fs.nodes ++ [(l, k)], fs.denied, fs.refused, imgs⟩ l = some k := by
  unfold kindAt at h ⊢
  by_cases hs : l.names.all (fun n => decide (n = "..".toList)) = true
  · rw [if_pos hs] at h
    cases h
  · rw [if_neg hs] at h ⊢
    rw [Option.map_eq_none'] at h
    simp only [List.find?_append, h, Option.none_or]
    simp

theorem kindAt_add_other (fs : FileSystem) (l l0 : Location) (k : Kind) (imgs : List Path)
    (hne : l0 ≠ l) :
    kindAt ⟨fs.nodes ++ [(l, k)], fs.denied, fs.refused, imgs⟩ l0 = kindAt fs l0 := by
  unfold kindAt
  by_cases hs : l0.names.all (fun n => decide (n = "..".toList)) = true
  · rw [if_pos hs, if_pos hs]
  · rw [if_neg hs, if_neg hs]
    simp only [List.find?_append]
    cases hf : List.find? (fun n => decide (n.1 = l0)) fs.nodes with
    | some n => simp
    | none =>
      have : ¬ l = l0 := fun e => hne e.symm
      simp [this]

/-- Resolution depends on the file system only through its directories. -/
theorem resolveFrom_mono (fs fs1 : FileSystem)
    (h : ∀ l, kindAt fs l = some Kind.directory → kindAt fs1 l = some Kind.directory)
    (cur : Location) (xs : List Str) (r : Location)
    (hr : resolveFrom fs cur xs = some r) : resolveFrom fs1 cur xs = some r := by
  induction xs generalizing cur with
  | nil => exact hr
  | cons x xs ih =>
    rw [resolveFrom_cons] at hr ⊢
    by_cases hd : kindAt fs cur = some Kind.directory
    · have hs : step fs1 cur x = step fs cur x := by
        unfold step
        rw [if_pos hd, if_pos (h cur hd)]
      rw [hs]
      cases hst : step fs cur x with
      | none => rw [hst] at hr; cases hr
      | some next =>
        rw [hst] at hr
        exact ih next hr
    · have : step fs cur x = none := by
        unfold step
        rw [if_neg hd]
      rw [this] at hr
      cases hr

theorem locate_mono (fs fs1 : FileSystem)
    (h : ∀ l, kindAt fs l = some Kind.directory → kindAt fs1 l = some Kind.directory)
    (p : Path) (r : Location) (hr : locate fs p = some r) : locate fs1 p = some r := by
  unfold locate at hr ⊢
  by_cases hp : p = []
  · rw [if_pos hp] at hr
    cases hr
  · rw [if_neg hp] at hr ⊢
    exact resolveFrom_mono fs fs1 h _ _ r hr

theorem child_ne (d : Location) (name : Str) : child d name ≠ d := by
  intro h
  have := congrArg (fun l => l.names.length) h
  simp [child] at this

theorem not_special_child (d : Location) (name : Str) (hn : name ≠ "..".toList) :
    ¬ (child d name).names.all (fun n => decide (n = "..".toList)) = true := by
  intro h
  rw [List.all_eq_true] at h
  have := h name (by simp [child])
  exact hn (by simpa using this)

/-- The location of a file placed in an existing directory. -/
theorem locate_append (fs : FileSystem) (p f : Path) (d : Location)
    (hp : locate fs p = some d) (hd : kindAt fs d = some Kind.directory)
    (hf : '/' ∉ f) (hne : f ≠ []) (h1 : f ≠ ".".toList) (h2 : f ≠ "..".toList) :
    locate fs (append p f) = some (child d f) := by
  have hpne : p ≠ [] := by
    intro e
    rw [e] at hp
    exact absurd hp (by simp [locate])
  obtain ⟨hseg, hhead, hane, -⟩ := append_file p f hpne hf hne
  unfold locate at hp ⊢
  rw [if_neg hpne] at hp
  rw [if_neg hane, hseg, hhead, resolveFrom_append, hp]
  show resolveFrom fs d [f] = _
  rw [resolveFrom_cons]
  unfold step
  rw [if_pos hd, if_neg h1, if_neg h2]
  rfl

/-! ## Facts about writing images -/

theorem saveToFile_written {σ : Type} (B : Backend σ) (data : σ) (fs : FileSystem)
    (p : Path) (l : Location) (henc : B.encodes data p = true) (hden : p ∉ fs.denied)
    (hend : endsWithSeparator p = false) (hl : locate fs p = some l)
    (hk : kindAt fs l ≠ some Kind.directory) (href : l ∉ fs.refused) :
    (saveToFile B data fs p).images = fs.images ++ [p] ∧
    (saveToFile B data fs p).refused = fs.refused ∧
    (saveToFile B data fs p).denied = fs.denied ∧
    kindAt (saveToFile B data fs p) l = some Kind.regular ∧
    ∀ l0, l0 ≠ l → kindAt (saveToFile B data fs p) l0 = kindAt fs l0 := by
  unfold saveToFile
  simp only [henc, hden, hend, hl, Bool.true_eq_false, Bool.false_eq_true, if_false]
  cases hkl : kindAt fs l with
  | none =>
    simp only [href, if_false]
    exact ⟨trivial, trivial, trivial, kindAt_add_self fs l _ _ hkl,
      fun l0 h0 => kindAt_add_other fs l l0 _ _ h0⟩
  | some k =>
    cases k with
    | directory => exact absurd hkl hk
    | regular =>
      simp only [href, if_false]
      exact ⟨trivial, trivial, trivial, hkl, fun l0 _ => rfl⟩

/-- A regular file stays a regular file when `saveToFile` is called anywhere. -/
theorem saveToFile_keeps {σ : Type} (B : Backend σ) (data : σ) (fs : FileSystem) (p : Path)
    (l0 : Location) (h0 : kindAt fs l0 = some Kind.regular) :
    kindAt (saveToFile B data fs p) l0 = some Kind.regular := by
  unfold saveToFile
  by_cases h1 : B.encodes data p = false
  · rw [if_pos h1]; exact h0
  rw [if_neg h1]
  by_cases h2 : p ∈ fs.denied
  · rw [if_pos h2]; exact h0
  rw [if_neg h2]
  by_cases h3 : endsWithSeparator p = true
  · rw [if_pos h3]; exact h0
  rw [if_neg h3]
  cases hl : locate fs p with
  | none => exact h0
  | some l =>
    cases hkl : kindAt fs l with
    | none =>
      simp only [hkl]
      by_cases h4 : l ∈ fs.refused
      · rw [if_pos h4]; exact h0
      · rw [if_neg h4]
        have hne : l0 ≠ l := by
          intro e
          rw [e, hkl] at h0
          cases h0
        rw [kindAt_add_other fs l l0 _ _ hne]
        exact h0
    | some k =>
      cases k with
      | directory => simp only [hkl]; exact h0
      | regular =>
        simp only [hkl]
        by_cases h4 : l ∈ fs.refused
        · rw [if_pos h4]; exact h0
        · rw [if_neg h4]; exact h0

/-- Writing the images of a list of names, each at a pathname that resolves to its
own location whatever regular files have been written meanwhile. -/
theorem saveToFile_all {σ : Type} (B : Backend σ) (data : σ) (path : Str → Path)
    (loc : Str → Location) (names : List Str) (s : FileSystem)
    (h : ∀ a ∈ names, B.encodes data (path a) = true ∧ path a ∉ s.denied ∧
      endsWithSeparator (path a) = false ∧
      kindAt s (loc a) ≠ some Kind.directory ∧ loc a ∉ s.refused)
    (hloc : ∀ s1 : FileSystem,
      (∀ l, kindAt s l = some Kind.directory → kindAt s1 l = some Kind.directory) →
      ∀ a ∈ names, locate s1 (path a) = some (loc a)) :
    (names.foldl (fun s a => saveToFile B data s (path a)) s).images =
      s.images ++ names.map path ∧
    (names.foldl (fun s a => saveToFile B data s (path a)) s).refused = s.refused ∧
    (names.foldl (fun s a => saveToFile B data s (path a)) s).denied = s.denied ∧
    (∀ l, kindAt (names.foldl (fun s a => saveToFile B data s (path a)) s) l =
        some Kind.directory ↔ kindAt s l = some Kind.directory) ∧
    (∀ a ∈ names, kindAt (names.foldl (fun s a => saveToFile B data s (path a)) s) (loc a) =
        some Kind.regular) := by
  have hkeep : ∀ (l0 : Location) (names : List Str) (s0 : FileSystem),
      kindAt s0 l0 = some Kind.regular →
      kindAt (names.foldl (fun s a => saveToFile B data s (path a)) s0) l0 =
        some Kind.regular := by
    intro l0 names
    induction names with
    | nil => intro s0 h0; exact h0
    | cons c names ihn =>
      intro s0 h0
      rw [List.foldl_cons]
      exact ihn _ (saveToFile_keeps B data s0 (path c) l0 h0)
  induction names generalizing s with
  | nil =>
    refine ⟨by simp, rfl, rfl, fun l => Iff.rfl, ?_⟩
    intro a ha
    cases ha
  | cons a rest ih =>
    obtain ⟨henc, hden, hend, hk, href⟩ := h a (List.mem_cons_self _ _)
    have hl : locate s (path a) = some (loc a) :=
      hloc s (fun l hl => hl) a (List.mem_cons_self _ _)
    obtain ⟨w1, w2, wd, w3, w4⟩ :=
      saveToFile_written B data s (path a) (loc a) henc hden hend hl hk href
    have hdirs : ∀ l, kindAt (saveToFile B data s (path a)) l = some Kind.directory ↔
        kindAt s l = some Kind.directory := by
      intro l
      by_cases e : l = loc a
      · rw [e, w3]
        constructor
        · intro hc; cases hc
        · intro hc; exact absurd hc hk
      · rw [w4 l e]
    have hrest := ih (saveToFile B data s (path a))
      (fun b hb => by
        obtain ⟨benc, bden, bend, bk, bref⟩ := h b (List.mem_cons_of_mem _ hb)
        refine ⟨benc, ?_, bend, fun hc => bk ((hdirs _).mp hc), ?_⟩
        · rw [wd]
          exact bden
        · rw [w2]
          exact bref)
      (fun s1 hs1 b hb =>
        hloc s1 (fun l hl => hs1 l ((hdirs l).mpr hl)) b (List.mem_cons_of_mem _ hb))
    obtain ⟨r1, r2, rd, r3, r4⟩ := hrest
    rw [List.foldl_cons]
    refine ⟨?_, ?_, ?_, ?_, ?_⟩
    · rw [r1, w1]
      simp
    · rw [r2, w2]
    · rw [rd, wd]
    · intro l
      rw [r3 l, hdirs l]
    · intro b hb
      rcases List.mem_cons.mp hb with rfl | hb
      · exact hkeep _ rest _ w3
      · exact r4 b hb

theorem drawAnimations_eq_foldl {σ : Type} (B : Backend σ) (data : σ) (basename : Str)
    (dir : Path) (file_extension : Str) (names : List Str) (fs : FileSystem) :
    drawAnimations B data basename dir file_extension names fs =
      (names.filter (isStaticAnimation (B.getAnimations data).length)).foldl
        (fun s a => saveToFile B data s
          (append dir (getFilename basename a file_extension (-1) 6)))
        fs := by
  induction names generalizing fs with
  | nil => rfl
  | cons a rest ih =>
    unfold drawAnimations
    by_cases hs : isStaticAnimation (B.getAnimations data).length a = true
    · simp only [hs, if_true, List.filter_cons_of_pos, List.foldl_cons]
      exact ih _
    · simp only [hs, Bool.false_eq_true, if_false, List.filter_cons_of_neg,
        not_false_eq_true]
      exact ih _

theorem getFilename_length (b a e : Str) (w : Nat) :
    (getFilename b a e (-1) w).length = b.length + a.length + e.length + 3 := by
  simp [getFilename]
  omega

/-- The guarded creation of main.cpp:172 and main.cpp:401, on a pathname that
resolves to a directory or to a free location where the system does not refuse. -/
theorem ensureDirectory_ok (fs : FileSystem) (p : Path) (d : Location)
    (hden : p ∉ fs.denied) (hp : locate fs p = some d)
    (hk : kindAt fs d ≠ some Kind.regular) (href : kindAt fs d = none → d ∉ fs.refused) :
    ∃ fs1, ensureDirectory fs p = Except.ok fs1 ∧
      locate fs1 p = some d ∧ kindAt fs1 d = some Kind.directory ∧
      fs1.images = fs.images ∧ fs1.refused = fs.refused ∧ fs1.denied = fs.denied ∧
      (∀ l, l ≠ d → kindAt fs1 l = kindAt fs l) := by
  cases hkd : kindAt fs d with
  | none =>
    have hex : fs_exists fs p = some false := by simp [fs_exists, hden, hp, hkd]
    refine ⟨⟨fs.nodes ++ [(d, Kind.directory)], fs.denied, fs.refused, fs.images⟩, ?_, ?_,
      kindAt_add_self fs d _ _ hkd, rfl, rfl, rfl,
      fun l hl => kindAt_add_other fs d l _ _ hl⟩
    · simp [ensureDirectory, hex, create_directory, hden, hp, hkd, href hkd]
    · refine locate_mono fs _ (fun l hl => ?_) p d hp
      have hne : l ≠ d := by
        intro e
        rw [e, hkd] at hl
        cases hl
      rw [kindAt_add_other fs d l _ _ hne]
      exact hl
  | some k =>
    cases k with
    | regular => exact absurd hkd hk
    | directory =>
      have hex : fs_exists fs p = some true := by simp [fs_exists, hden, hp, hkd]
      exact ⟨fs, by simp [ensureDirectory, hex], hp, hkd, rfl, rfl, rfl, fun l _ => rfl⟩

/-- C7 fails as stated: the asset `a_spr.skel` of the example backend loads and gets
its surface, and `attack` is its static animation, but (1) when `result` is a
regular file, which passes the guard of `main`, `create_directory` throws and the
call ends with no directory and no image; (2) when a regular file sits at
`result/a`, `fs::exists` is true, no directory is created and no image is written. -/
theorem drawCharacterSprite_obstructed :
    demoBackend.readSkeletonBinaryData "a_spr.skel".toList "a_spr.atlas".toList =
      some ["idle".toList, "attack".toList] ∧
    demoBackend.rendererCreate ["idle".toList, "attack".toList] = true ∧
    staticAnimations ["idle".toList, "attack".toList] = ["attack".toList] ∧
    ensureDirectory fileAsRoot "result".toList = Except.ok fileAsRoot ∧
    drawCharacterSprite demoBackend "result".toList "png".toList "a_spr.skel".toList
        "a_spr.atlas".toList fileAsRoot = Except.error fileAsRoot ∧
    drawCharacterSprite demoBackend "result".toList "png".toList "a_spr.skel".toList
        "a_spr.atlas".toList fileAsDirectory = Except.ok fileAsDirectory ∧
    kindAt fileAsDirectory (below ["result".toList, "a".toList]) = some Kind.regular ∧
    fileAsDirectory.images = [] := by
  decide

/-- C7, amended: for an asset that loads and whose render surface is created, with
character identifier `c` and animation names in definition order, provided that
the pathname `dest_dir / c` is not denied and resolves (every name before its last
is an existing directory) to a location `d` that holds a directory, or holds
nothing and where the system does not refuse to create one, and that for every
static animation the image's file name holds no separator, the rendering library
encodes the image for its pathname, the pathname is not denied, no directory sits
at its place and the system does not refuse the write: `drawCharacterSprite`
returns normally, the directory `dest_dir / c` exists afterwards, and the images
written by the call are exactly one per static animation, in definition order, at
`dest_dir / c / getFilename c name extension` with no frame index (a regular file
is there afterwards), none for the other animations; with no animation the
directory exists and no image is written. -/
theorem drawCharacterSprite_spec {σ : Type} (B : Backend σ) (dest_dir : Path)
    (file_extension : Str) (skel_filepath atlas_filepath : Path) (fs : FileSystem) (data : σ)
    (d : Location)
    (hload : B.readSkeletonBinaryData skel_filepath atlas_filepath = some data)
    (hsurface : B.rendererCreate data = true)
    (hden : append dest_dir (getBasename skel_filepath) ∉ fs.denied)
    (hdir : locate fs (append dest_dir (getBasename skel_filepath)) = some d)
    (hfree : kindAt fs d ≠ some Kind.regular)
    (hmay : kindAt fs d = none → d ∉ fs.refused)
    (himg : ∀ name ∈ staticAnimations (B.getAnimations data),
      '/' ∉ imageName (getBasename skel_filepath) name file_extension ∧
      B.encodes data
        (imagePath dest_dir (getBasename skel_filepath) name file_extension) = true ∧
      imagePath dest_dir (getBasename skel_filepath) name file_extension ∉ fs.denied ∧
      kindAt fs (child d (imageName (getBasename skel_filepath) name file_extension)) ≠
        some Kind.directory ∧
      child d (imageName (getBasename skel_filepath) name file_extension) ∉ fs.refused) :
    ∃ out,
      drawCharacterSprite B dest_dir file_extension skel_filepath atlas_filepath fs =
        Except.ok out ∧
      fs_exists out (append dest_dir (getBasename skel_filepath)) = some true ∧
      kindAt out d = some Kind.directory ∧
      out.images = fs.images ++ (staticAnimations (B.getAnimations data)).map
        (fun name => imagePath dest_dir (getBasename skel_filepath) name file_extension) ∧
      (∀ name ∈ staticAnimations (B.getAnimations data),
        locate out (imagePath dest_dir (getBasename skel_filepath) name file_extension) =
          some (child d (imageName (getBasename skel_filepath) name file_extension)) ∧
        kindAt out (child d (imageName (getBasename skel_filepath) name file_extension)) =
          some Kind.regular) ∧
      (B.getAnimations data = [] → out.images = fs.images) := by
  obtain ⟨fs1, he, e1, e2, e3, e4, ed, e5⟩ :=
    ensureDirectory_ok fs (append dest_dir (getBasename skel_filepath)) d hden hdir hfree hmay
  have hpne : append dest_dir (getBasename skel_filepath) ≠ [] := by
    intro e
    rw [e] at hdir
    exact absurd hdir (by simp [locate])
  have hname : ∀ name ∈ staticAnimations (B.getAnimations data),
      imageName (getBasename skel_filepath) name file_extension ≠ [] ∧
      imageName (getBasename skel_filepath) name file_extension ≠ ".".toList ∧
      imageName (getBasename skel_filepath) name file_extension ≠ "..".toList := by
    intro name _
    have hlen := getFilename_length (getBasename skel_filepath) name file_extension 6
    refine ⟨fun e => ?_, fun e => ?_, fun e => ?_⟩ <;>
    · unfold imageName at e
      rw [e] at hlen
      simp at hlen
      try omega
  have hlocate : ∀ s1 : FileSystem,
      (∀ l, kindAt fs1 l = some Kind.directory → kindAt s1 l = some Kind.directory) →
      ∀ name ∈ staticAnimations (B.getAnimations data),
        locate s1 (imagePath dest_dir (getBasename skel_filepath) name file_extension) =
          some (child d (imageName (getBasename skel_filepath) name file_extension)) := by
    intro s1 hs1 name hn
    obtain ⟨hsep, -, -, -, -⟩ := himg name hn
    obtain ⟨hne, hdot, hdots⟩ := hname name hn
    exact locate_append s1 _ _ d (locate_mono fs1 s1 hs1 _ d e1) (hs1 d e2) hsep hne
      hdot hdots
  have hall := saveToFile_all B data
    (fun name => imagePath dest_dir (getBasename skel_filepath) name file_extension)
    (fun name => child d (imageName (getBasename skel_filepath) name file_extension))
    (staticAnimations (B.getAnimations data)) fs1
    (fun name hn => by
      obtain ⟨hsep, henc, hnd, hk, href⟩ := himg name hn
      obtain ⟨hne, -, -⟩ := hname name hn
      refine ⟨henc, ?_, ?_, ?_, ?_⟩
      · rw [ed]
        exact hnd
      · obtain ⟨-, -, -, hlast⟩ := append_file _ _ hpne hsep hne
        unfold endsWithSeparator imagePath
        rw [hlast, decide_eq_false_iff_not]
        intro hc
        exact hsep (List.mem_of_getLast?_eq_some hc)
      · rw [e5 _ (child_ne d _)]
        exact hk
      · rw [e4]
        exact href)
    hlocate
  obtain ⟨r1, -, rd, r3, r4⟩ := hall
  have hrun : drawCharacterSprite B dest_dir file_extension skel_filepath atlas_filepath fs =
      Except.ok ((staticAnimations (B.getAnimations data)).foldl
        (fun s name => saveToFile B data s
          (imagePath dest_dir (getBasename skel_filepath) name file_extension)) fs1) := by
    unfold drawCharacterSprite
    simp only [hload, hsurface, Bool.not_true, Bool.false_eq_true, if_false, he]
    rw [drawAnimations_eq_foldl]
    rfl
  refine ⟨_, hrun, ?_, (r3 d).mpr e2, ?_, ?_, ?_⟩
  · have hl := locate_mono fs1 _ (fun l hl => (r3 l).mpr hl) _ d e1
    have hnd : append dest_dir (getBasename skel_filepath) ∉
        ((staticAnimations (B.getAnimations data)).foldl
          (fun s name => saveToFile B data s
            (imagePath dest_dir (getBasename skel_filepath) name file_extension))
          fs1).denied := by
      rw [rd, ed]
      exact hden
    simp [fs_exists, hnd, hl, (r3 d).mpr e2]
  · rw [r1, e3]
  · intro name hn
    exact ⟨hlocate _ (fun l hl => (r3 l).mpr hl) name hn, r4 name hn⟩
  · intro hnil
    have hs : staticAnimations (B.getAnimations data) = [] := by
      rw [hnil]
      rfl
    rw [r1, e3, hs]
    simp

/-- C7 amended, at the asset `a_spr.skel` of the example backend, on an output tree
that holds only the output root. -/
theorem drawCharacterSprite_spec_witness :
    ∃ out,
      drawCharacterSprite demoBackend "result".toList "png".toList "a_spr.skel".toList
        "a_spr.atlas".toList demoTree = Except.ok out ∧
      kindAt out (below ["result".toList, "a".toList]) = some Kind.directory ∧
      out.images = ["result/a/a--attack.png".toList] ∧
      kindAt out (below ["result".toList, "a".toList, "a--attack.png".toList]) =
        some Kind.regular :=
  have h := drawCharacterSprite_spec demoBackend "result".toList "png".toList
    "a_spr.skel".toList "a_spr.atlas".toList demoTree ["idle".toList, "attack".toList]
    (below ["result".toList, "a".toList]) (by decide) (by decide) (by decide) (by decide)
    (by decide) (by decide) (by decide)
  h.elim fun out ho =>
    ⟨out, ho.1, ho.2.2.1, ho.2.2.2.1, (ho.2.2.2.2.1 "attack".toList (by decide)).2⟩

/-! ## Failure isolation -/

/-- C8: when loading an asset's skeleton fails, or its render surface cannot be
created, `drawCharacterSprite` returns with the file system as it was (no
directory, no file), and the run of `main` over an enumeration that holds the
failing asset ends as the run over the enumeration without it: in the same file
system, or with the same exception leaving the same file system behind. -/
theorem failure_isolation {σ : Type} (B : Backend σ) (dest_dir : Path) (file_extension : Str)
    (before after : List Path) (bad : Path) (fs : FileSystem)
    (hfail : ∀ data, B.readSkeletonBinaryData bad (getAtlasPath bad) = some data →
      B.rendererCreate data = false) :
    (∀ fs0, drawCharacterSprite B dest_dir file_extension bad (getAtlasPath bad) fs0 =
      Except.ok fs0) ∧
    main B dest_dir file_extension (before ++ bad :: after) fs =
      main B dest_dir file_extension (before ++ after) fs := by
  have hskip : ∀ fs0,
      drawCharacterSprite B dest_dir file_extension bad (getAtlasPath bad) fs0 =
        Except.ok fs0 :=
    fun fs0 => drawCharacterSprite_of_failure B dest_dir file_extension bad _ fs0 hfail
  refine ⟨hskip, ?_⟩
  unfold main
  cases ensureDirectory fs dest_dir with
  | error left => rfl
  | ok fs1 =>
    simp only [walk_eq_foldlM, List.filter_append, List.foldlM_append, List.filter_cons]
    by_cases hsel : isCharacterSkeleton bad
    · simp only [hsel, decide_True, if_true, List.foldlM_cons, hskip]
      rfl
    · simp only [hsel, decide_False, Bool.false_eq_true, if_false]

/-- C8, at the example backend, whose loader fails on `bad.skel`. -/
theorem failure_isolation_witness :
    main demoBackend "result".toList "png".toList
        (["a_spr.skel".toList] ++ "bad.skel".toList :: ["b.skel".toList]) emptyTree =
      Except.ok
        { nodes := [(below ["result".toList], Kind.directory),
            (below ["result".toList, "a".toList], Kind.directory),
            (below ["result".toList, "a".toList, "a--attack.png".toList], Kind.regular),
            (below ["result".toList, "b".toList], Kind.directory),
            (below ["result".toList, "b".toList, "b--attack.png".toList], Kind.regular)],
          denied := [],
          refused := [],
          images := ["result/a/a--attack.png".toList, "result/b/b--attack.png".toList] } :=
  ((failure_isolation demoBackend "result".toList "png".toList ["a_spr.skel".toList]
    ["b.skel".toList] "bad.skel".toList emptyTree
    (by
      intro data h
      have hnone : demoBackend.readSkeletonBinaryData "bad.skel".toList
          (getAtlasPath "bad.skel".toList) = none := by decide
      rw [hnone] at h
      cases h)).2).trans (by decide)

/-! ## Identifier collisions -/

/-- C10: `getBasename` is not injective on the files the walker selects: the paths
`Hero_spr.skel` and `hero_sprite01.skel` have different stems, both are passed to
`drawCharacterSprite`, and both get the identifier `hero`, hence the same output
directory and, for every animation name and extension, the same output file. -/
theorem getBasename_not_injective :
    stem "Hero_spr.skel".toList ≠ stem "hero_sprite01.skel".toList ∧
    extension "Hero_spr.skel".toList = ".skel".toList ∧
    extension "hero_sprite01.skel".toList = ".skel".toList ∧
    passedPaths ["Hero_spr.skel".toList, "hero_sprite01.skel".toList] =
      ["Hero_spr.skel".toList, "hero_sprite01.skel".toList] ∧
    getBasename "Hero_spr.skel".toList = getBasename "hero_sprite01.skel".toList ∧
    (∀ (dest_dir : Path) (animation_name file_extension : Str),
      append dest_dir (getBasename "Hero_spr.skel".toList) =
        append dest_dir (getBasename "hero_sprite01.skel".toList) ∧
      append (append dest_dir (getBasename "Hero_spr.skel".toList))
          (getFilename (getBasename "Hero_spr.skel".toList) animation_name
            file_extension (-1) 6) =
        append (append dest_dir (getBasename "hero_sprite01.skel".toList))
          (getFilename (getBasename "hero_sprite01.skel".toList) animation_name
            file_extension (-1) 6)) := by
  have hid : getBasename "Hero_spr.skel".toList = getBasename "hero_sprite01.skel".toList := by
    decide
  refine ⟨by decide, by decide, by decide, by decide, hid, ?_⟩
  intro dest_dir animation_name file_extension
  rw [hid]
  exact ⟨rfl, rfl⟩

end BaSpine
